import Mathlib

/-
  Verification of the flat_graphs directed-graph container (src/main.rs).

  Shallow embedding conventions:
  * `Vec<Node>` becomes `List Node`; `usize` indices become `Nat`.
  * Rust methods that can panic (`unwrap`, out-of-bounds `Vec` indexing)
    return `Option` / an explicit `panic` outcome.
  * `Graph::walk` loops over a queue; the embedding adds an explicit fuel
    argument and an `outOfFuel` outcome, and we prove separately that a
    computable amount of fuel always suffices, which is the termination
    statement for the original loop.
  * The visitor is modelled by collecting the list of calls
    `(current node, resolved target)` the traversal would make, in order.
-/

/-- Strongly typed reference to a node in the graph (`NodeRef(pub usize)`). -/
structure NodeRef where
  val : Nat
deriving DecidableEq

/-- The root node is always at the 0th index (`const ROOT: NodeRef = NodeRef(0)`). -/
def ROOT : NodeRef := ⟨0⟩

/-- Node in the graph: identifier, label and outgoing edges. -/
structure Node where
  id : NodeRef
  label : String
  edges : List NodeRef
deriving DecidableEq

/-- A Graph represented as a vector of nodes. -/
structure Graph where
  nodes : List Node
deriving DecidableEq

/-- `Graph::new`: create a new empty graph. -/
def Graph.new : Graph := { nodes := [] }

/-- `Graph::add_node`: append a new unlinked node, returning the updated
graph together with the `NodeRef` the Rust method returns. -/
def Graph.add_node (g : Graph) : Graph × NodeRef :=
  let node_id := g.nodes.length
  let node : Node := { id := ⟨node_id⟩, label := ".L" ++ toString node_id, edges := [] }
  ({ nodes := g.nodes ++ [node] }, ⟨node_id⟩)

/-- `Graph::node_as_ref`: resolve a reference to a node, `none` when out of bounds. -/
def Graph.node_as_ref (g : Graph) (id : NodeRef) : Option Node :=
  g.nodes[id.val]?

/-- `Graph::link`: append `to` to `from_`'s edge list. The Rust code does
`self.nodes.get_mut(from.0).unwrap()`, so an out-of-bounds source is a
panic, modelled by `none`. -/
def Graph.link (g : Graph) (from_ to_ : NodeRef) : Option Graph :=
  match g.nodes[from_.val]? with
  | none => none
  | some n => some { nodes := g.nodes.set from_.val { n with edges := n.edges ++ [to_] } }

/-- The `for &edge in &edges { self.link(..) }` loop of `add_node_linked`. -/
def Graph.linkAll (g : Graph) (from_ : NodeRef) : List NodeRef → Option Graph
  | [] => some g
  | e :: rest =>
    match g.link from_ e with
    | none => none
    | some g2 => g2.linkAll from_ rest

/-- `Graph::add_node_linked`: push a node whose edge list is initialized to
`edges`, then call `link` once per supplied edge. -/
def Graph.add_node_linked (g : Graph) (edges : List NodeRef) : Option (Graph × NodeRef) :=
  let node_id := g.nodes.length
  let node : Node := { id := ⟨node_id⟩, label := ".L" ++ toString node_id, edges := edges }
  let g2 : Graph := { nodes := g.nodes ++ [node] }
  (g2.linkAll ⟨node_id⟩ edges).map (fun g3 => (g3, ⟨node_id⟩))

/-- One visitor call: the current node and the resolved target (`None` both
for a node without edges and for an edge whose target does not resolve). -/
abbrev VisitEvent := Node × Option Node

/-- Result of running `walk`: normal completion, a panic, or fuel
exhaustion (an artifact of the embedding, ruled out by the termination
theorems). Each outcome carries the visitor calls made so far, in order. -/
inductive WalkOutcome where
  | ok (trace : List VisitEvent)
  | panic (trace : List VisitEvent)
  | outOfFuel (trace : List VisitEvent)
deriving DecidableEq

/-- The visitor calls an outcome carries. -/
def WalkOutcome.trace : WalkOutcome → List VisitEvent
  | .ok t => t
  | .panic t => t
  | .outOfFuel t => t

/-- Whether the outcome is the fuel-exhaustion artifact. -/
def WalkOutcome.isOut : WalkOutcome → Bool
  | .outOfFuel _ => true
  | _ => false

/-- The loop of `Graph::walk`. State: remaining fuel, the `visited` vector,
the BFS queue, and the visitor calls made so far. Mirrors the Rust body:
pop the front; `visited[node.0]` panics when the index is out of bounds;
skip if visited; mark visited; resolve (`unwrap`); then either emit one
call per edge while enqueueing each edge, or emit a single no-edge call. -/
def Graph.walkAux (g : Graph) : Nat → List Bool → List NodeRef → List VisitEvent → WalkOutcome
  | _, _, [], acc => .ok acc
  | 0, _, _ :: _, acc => .outOfFuel acc
  | fuel + 1, visited, node :: rest, acc =>
    if h : node.val < visited.length then
      if visited.get ⟨node.val, h⟩ then
        g.walkAux fuel visited rest acc
      else
        let visited2 := visited.set node.val true
        match g.node_as_ref node with
        | none => .panic acc
        | some n =>
          if n.edges.length > 0 then
            g.walkAux fuel visited2 (rest ++ n.edges)
              (acc ++ n.edges.map (fun e => (n, g.node_as_ref e)))
          else
            g.walkAux fuel visited2 rest (acc ++ [(n, none)])
    else
      .panic acc

/-- `Graph::walk`: BFS from `ROOT` with a fresh visited vector sized to the
node count. -/
def Graph.walk (g : Graph) (fuel : Nat) : WalkOutcome :=
  g.walkAux fuel (List.replicate g.nodes.length false) [ROOT] []

/-- Total number of stored edges; used for fuel bounds. -/
def Graph.totalEdges (g : Graph) : Nat :=
  (g.nodes.map (fun n => n.edges.length)).sum

/-- Fuel that always suffices for `walk` (proved below). -/
def Graph.enoughFuel (g : Graph) : Nat :=
  1 + g.nodes.length * (g.totalEdges + 1)

/-- Nodes reachable from a seed set by following stored edges. -/
inductive ReachableFrom (g : Graph) (S : NodeRef → Prop) : NodeRef → Prop where
  | base (r : NodeRef) : S r → ReachableFrom g S r
  | step (u e : NodeRef) (n : Node) : ReachableFrom g S u → g.node_as_ref u = some n →
      e ∈ n.edges → ReachableFrom g S e

/-- Nodes reachable from the fixed root. -/
def Graph.Reachable (g : Graph) (r : NodeRef) : Prop :=
  ReachableFrom g (fun x => x = ROOT) r

/-- Identity-equals-storage-position invariant of the data model. -/
@[reducible] def Graph.Wf (g : Graph) : Prop :=
  ∀ i : Fin g.nodes.length, (g.nodes.get i).id = ⟨i.val⟩

/-- All stored edges point inside the graph. -/
@[reducible] def Graph.EdgesOk (g : Graph) : Prop :=
  ∀ n ∈ g.nodes, ∀ e ∈ n.edges, e.val < g.nodes.length

/-- The visitor calls one expansion of node `n` emits. -/
def Graph.visitBlock (g : Graph) (n : Node) : List VisitEvent :=
  if n.edges.length > 0 then n.edges.map (fun e => (n, g.node_as_ref e))
  else [(n, none)]

/-- The visitor calls the expansion of the node stored at index `i` emits. -/
def Graph.blockAt (g : Graph) (i : Nat) : List VisitEvent :=
  match g.node_as_ref ⟨i⟩ with
  | some n => g.visitBlock n
  | none => []

/-- The graph built by `main`: five nodes, edges root→A, A→B, B→C, B→D, D→A. -/
def demoBuild : Option Graph := do
  let (g0, r) := Graph.new.add_node
  let (g1, a) := g0.add_node
  let (g2, b) := g1.add_node
  let (g3, c) := g2.add_node
  let (g4, d) := g3.add_node
  let g5 ← g4.link r a
  let g6 ← g5.link a b
  let g7 ← g6.link b c
  let g8 ← g7.link b d
  let g9 ← g8.link d a
  some g9

/-- The value `demoBuild` produces, written out. -/
def demoGraph : Graph :=
  { nodes :=
      [ { id := ⟨0⟩, label := ".L0", edges := [⟨1⟩] }
      , { id := ⟨1⟩, label := ".L1", edges := [⟨2⟩] }
      , { id := ⟨2⟩, label := ".L2", edges := [⟨3⟩, ⟨4⟩] }
      , { id := ⟨3⟩, label := ".L3", edges := [] }
      , { id := ⟨4⟩, label := ".L4", edges := [⟨1⟩] } ] }

/-- The trace `walk` actually produces on `demoGraph` (six visitor calls;
node C, stored at index 3, has no out-edges and produces a no-edge call). -/
def demoTrace : List VisitEvent :=
  [ ({ id := ⟨0⟩, label := ".L0", edges := [⟨1⟩] },
      some { id := ⟨1⟩, label := ".L1", edges := [⟨2⟩] })
  , ({ id := ⟨1⟩, label := ".L1", edges := [⟨2⟩] },
      some { id := ⟨2⟩, label := ".L2", edges := [⟨3⟩, ⟨4⟩] })
  , ({ id := ⟨2⟩, label := ".L2", edges := [⟨3⟩, ⟨4⟩] },
      some { id := ⟨3⟩, label := ".L3", edges := [] })
  , ({ id := ⟨2⟩, label := ".L2", edges := [⟨3⟩, ⟨4⟩] },
      some { id := ⟨4⟩, label := ".L4", edges := [⟨1⟩] })
  , ({ id := ⟨3⟩, label := ".L3", edges := [] }, none)
  , ({ id := ⟨4⟩, label := ".L4", edges := [⟨1⟩] },
      some { id := ⟨1⟩, label := ".L1", edges := [⟨2⟩] }) ]

/-- The five visitor calls the specification's concrete scenario lists:
(root,A), (A,B), (B,C), (B,D), (D,A) — without the (C, absent) call. -/
def claimedDemoTrace : List VisitEvent :=
  [ ({ id := ⟨0⟩, label := ".L0", edges := [⟨1⟩] },
      some { id := ⟨1⟩, label := ".L1", edges := [⟨2⟩] })
  , ({ id := ⟨1⟩, label := ".L1", edges := [⟨2⟩] },
      some { id := ⟨2⟩, label := ".L2", edges := [⟨3⟩, ⟨4⟩] })
  , ({ id := ⟨2⟩, label := ".L2", edges := [⟨3⟩, ⟨4⟩] },
      some { id := ⟨3⟩, label := ".L3", edges := [] })
  , ({ id := ⟨2⟩, label := ".L2", edges := [⟨3⟩, ⟨4⟩] },
      some { id := ⟨4⟩, label := ".L4", edges := [⟨1⟩] })
  , ({ id := ⟨4⟩, label := ".L4", edges := [⟨1⟩] },
      some { id := ⟨1⟩, label := ".L1", edges := [⟨2⟩] }) ]

/-- One node whose single stored edge points past the graph bounds. -/
def danglingGraph : Graph :=
  { nodes := [ { id := ⟨0⟩, label := ".L0", edges := [⟨1⟩] } ] }

/-- A reference accounted for by the walk state: in the queue, or marked
visited. -/
def seenIn (visited : List Bool) (queue : List NodeRef) (r : NodeRef) : Prop :=
  r ∈ queue ∨ ∃ h : r.val < visited.length, visited.get ⟨r.val, h⟩ = true

/-- Walk-state invariant: the out-edges of every visited-marked node are
accounted for (each was enqueued when the node was expanded). -/
def edgesSeen (g : Graph) (visited : List Bool) (queue : List NodeRef) : Prop :=
  ∀ (i : Nat) (hv : i < visited.length) (hn : i < g.nodes.length),
    visited.get ⟨i, hv⟩ = true →
    ∀ e ∈ (g.nodes.get ⟨i, hn⟩).edges, seenIn visited queue e

/-! ### Basic lemmas about `link`, `linkAll`, `add_node`, `add_node_linked` -/

/-- `link` with an out-of-bounds source hits the fatal `unwrap`. -/
theorem Graph.link_oob (g : Graph) (from_ to_ : NodeRef)
    (h : g.nodes.length ≤ from_.val) : g.link from_ to_ = none := by
  unfold Graph.link
  rw [List.getElem?_eq_none h]

/-- `link` with an in-bounds source appends `to_` to the source's edges. -/
theorem Graph.link_ok (g : Graph) (from_ to_ : NodeRef)
    (h : from_.val < g.nodes.length) :
    g.link from_ to_ =
      some ⟨g.nodes.set from_.val
        { g.nodes.get ⟨from_.val, h⟩ with
          edges := (g.nodes.get ⟨from_.val, h⟩).edges ++ [to_] }⟩ := by
  unfold Graph.link
  rw [List.getElem?_eq_getElem h]
  rfl

/-- Linking from the freshly appended last node appends to that node. -/
theorem Graph.link_concat (pre : List Node) (nd : Node) (e : NodeRef) :
    (Graph.mk (pre ++ [nd])).link ⟨pre.length⟩ e
      = some (Graph.mk (pre ++ [{ nd with edges := nd.edges ++ [e] }])) := by
  unfold Graph.link
  rw [List.getElem?_concat_length]
  show some (Graph.mk ((pre ++ [nd]).set pre.length
    { nd with edges := nd.edges ++ [e] })) = _
  rw [List.set_append_right _ _ (Nat.le_refl _)]
  simp

/-- Folding `link` over a list of targets from the freshly appended last
node appends all of them, in order. -/
theorem Graph.linkAll_concat (pre : List Node) (nd : Node) (todo : List NodeRef) :
    (Graph.mk (pre ++ [nd])).linkAll ⟨pre.length⟩ todo
      = some (Graph.mk (pre ++ [{ nd with edges := nd.edges ++ todo }])) := by
  induction todo generalizing nd with
  | nil => simp [Graph.linkAll]
  | cons e rest ih =>
    unfold Graph.linkAll
    rw [Graph.link_concat]
    show (Graph.mk (pre ++ [{ nd with edges := nd.edges ++ [e] }])).linkAll
        ⟨pre.length⟩ rest = _
    rw [ih { nd with edges := nd.edges ++ [e] }]
    simp

/-- Closed form of `add_node_linked`: the node is stored before the link
loop runs, so every internal `link` sees an in-bounds source and the new
node ends up with its edge list duplicated. -/
theorem Graph.add_node_linked_eq (g : Graph) (edges : List NodeRef) :
    g.add_node_linked edges
      = some (Graph.mk (g.nodes ++
          [{ id := ⟨g.nodes.length⟩, label := ".L" ++ toString g.nodes.length,
             edges := edges ++ edges }]),
          ⟨g.nodes.length⟩) := by
  simp only [Graph.add_node_linked]
  rw [Graph.linkAll_concat]
  rfl

/-! ### Claim C8: `link` error behavior -/

/-- C8: `link(from, to)` halts fatally iff `from`'s index is at or beyond
the node count; with an in-bounds source it returns normally and appends
the unvalidated `to` to the source's outgoing-edge sequence. -/
theorem link_fatal_iff_oob_source (g : Graph) (from_ to_ : NodeRef) :
    (g.link from_ to_ = none ↔ g.nodes.length ≤ from_.val) ∧
    (∀ h : from_.val < g.nodes.length,
      g.link from_ to_ =
        some ⟨g.nodes.set from_.val
          { g.nodes.get ⟨from_.val, h⟩ with
            edges := (g.nodes.get ⟨from_.val, h⟩).edges ++ [to_] }⟩) := by
  refine ⟨⟨fun hn => ?_, fun h => g.link_oob from_ to_ h⟩, fun h => g.link_ok from_ to_ h⟩
  by_contra hlt
  rw [g.link_ok from_ to_ (by omega)] at hn
  cases hn

theorem link_fatal_iff_oob_source_witness :
    (demoGraph.link ⟨7⟩ ⟨0⟩ = none ↔ demoGraph.nodes.length ≤ 7) ∧
    (demoGraph.link ⟨0⟩ ⟨7⟩ =
      some ⟨demoGraph.nodes.set 0
        { demoGraph.nodes.get ⟨0, by decide⟩ with
          edges := (demoGraph.nodes.get ⟨0, by decide⟩).edges ++ [⟨7⟩] }⟩) :=
  ⟨(link_fatal_iff_oob_source demoGraph ⟨7⟩ ⟨0⟩).1,
   (link_fatal_iff_oob_source demoGraph ⟨0⟩ ⟨7⟩).2 (by decide)⟩

/-! ### Claim C3: `add_node_linked` duplicates the supplied edges -/

/-- C3: `add_node_linked(edges)` first stores the new node with edge list
`edges`, then the link loop appends each supplied edge once more, so the
stored outgoing-edge sequence of the new node is `edges ++ edges`. -/
theorem add_node_linked_doubles_edges (g : Graph) (edges : List NodeRef) :
    ∃ p : Graph × NodeRef,
      g.add_node_linked edges = some p ∧
      p.2 = ⟨g.nodes.length⟩ ∧
      p.1.node_as_ref p.2 =
        some { id := ⟨g.nodes.length⟩, label := ".L" ++ toString g.nodes.length,
               edges := edges ++ edges } := by
  refine ⟨_, g.add_node_linked_eq edges, rfl, ?_⟩
  unfold Graph.node_as_ref
  exact List.getElem?_concat_length _ _

/-! ### Claim C4: `add_node_linked` never hits the fatal link path -/

/-- C4: for every graph and every edge list, including out-of-bounds
targets, `add_node_linked` completes without a fatal error: the node is
pushed before the link loop, so every internal `link` has an in-bounds
source. -/
theorem add_node_linked_total (g : Graph) (edges : List NodeRef) :
    ∃ p : Graph × NodeRef, g.add_node_linked edges = some p :=
  ⟨_, g.add_node_linked_eq edges⟩

/-! ### Unfolding lemmas for the walk loop -/

theorem Graph.walkAux_nil (g : Graph) (fuel : Nat) (visited : List Bool)
    (acc : List VisitEvent) : g.walkAux fuel visited [] acc = .ok acc := by
  cases fuel <;> rfl

theorem Graph.walkAux_zero (g : Graph) (visited : List Bool) (node : NodeRef)
    (rest : List NodeRef) (acc : List VisitEvent) :
    g.walkAux 0 visited (node :: rest) acc = .outOfFuel acc := rfl

theorem Graph.walkAux_succ (g : Graph) (fuel : Nat) (visited : List Bool)
    (node : NodeRef) (rest : List NodeRef) (acc : List VisitEvent) :
    g.walkAux (fuel + 1) visited (node :: rest) acc =
      if h : node.val < visited.length then
        if visited.get ⟨node.val, h⟩ then
          g.walkAux fuel visited rest acc
        else
          match g.node_as_ref node with
          | none => .panic acc
          | some n =>
            if n.edges.length > 0 then
              g.walkAux fuel (visited.set node.val true) (rest ++ n.edges)
                (acc ++ n.edges.map (fun e => (n, g.node_as_ref e)))
            else
              g.walkAux fuel (visited.set node.val true) rest (acc ++ [(n, none)])
      else
        .panic acc := rfl

/-! ### Claim C7: walking an empty graph is fatal -/

/-- C7: `new` produces a graph with zero nodes, and `walk` on it panics
before any visitor call: the first dequeue indexes `visited[0]` on an
empty visited vector. The trace of the panic outcome is empty, so the
visitor is never invoked. -/
theorem walk_empty_graph_fatal :
    Graph.new.nodes.length = 0 ∧
    ∀ fuel : Nat, Graph.new.walk (fuel + 1) = .panic [] := by
  refine ⟨rfl, fun fuel => ?_⟩
  rw [Graph.walk, Graph.walkAux_succ]
  rfl

/-- Resolving the reference to a freshly appended last node yields it. -/
theorem Graph.node_as_ref_last (pre : List Node) (nd : Node) :
    (Graph.mk (pre ++ [nd])).node_as_ref ⟨pre.length⟩ = some nd := by
  unfold Graph.node_as_ref
  exact List.getElem?_concat_length _ _

/-! ### Identity-equals-position invariant -/

theorem Graph.Wf_new : Graph.new.Wf := fun i => i.elim0

/-- Appending a node whose stored id is the old length preserves `Wf`. -/
theorem Graph.Wf_append (g : Graph) (nd : Node) (hg : g.Wf)
    (hid : nd.id = ⟨g.nodes.length⟩) : (Graph.mk (g.nodes ++ [nd])).Wf := by
  intro i
  obtain ⟨i, h⟩ := i
  have h2 : i < (g.nodes ++ [nd]).length := h
  have hlen : i < g.nodes.length + 1 := by simpa using h2
  show ((g.nodes ++ [nd]).get ⟨i, h2⟩).id = ⟨i⟩
  simp only [List.get_eq_getElem]
  rcases Nat.lt_or_ge i g.nodes.length with hi | hi
  · rw [List.getElem_append_left hi]
    exact hg ⟨i, hi⟩
  · have hie : i = g.nodes.length := by omega
    subst hie
    rw [List.getElem_concat_length _ _ _ rfl]
    exact hid

/-- `set` that keeps the node id preserves `Wf`. -/
theorem Graph.Wf_set (g : Graph) (j : Nat) (nd : Node) (hg : g.Wf)
    (hj : j < g.nodes.length) (hid : nd.id = (g.nodes.get ⟨j, hj⟩).id) :
    (Graph.mk (g.nodes.set j nd)).Wf := by
  intro i
  obtain ⟨i, h⟩ := i
  have h2 : i < (g.nodes.set j nd).length := h
  have h3 : i < g.nodes.length := by simpa using h2
  show ((g.nodes.set j nd).get ⟨i, h2⟩).id = ⟨i⟩
  simp only [List.get_eq_getElem]
  rcases Decidable.em (i = j) with hij | hij
  · subst hij
    rw [List.getElem_set_self]
    rw [hid]
    exact hg ⟨i, hj⟩
  · rw [List.getElem_set_ne (fun hc => hij hc.symm)]
    exact hg ⟨i, h3⟩

/-! ### Claim C9: sequential allocation and identity invariant -/

/-- C9: references returned by `add_node` / `add_node_linked` carry the
pre-call node count as index, resolve to a node whose stored identity
equals the returned reference, and the identity-equals-storage-position
invariant is preserved by every graph operation (`new`, `add_node`,
`add_node_linked`, `link`). -/
theorem add_node_sequential_identity :
    (∀ g : Graph, (g.add_node).2 = ⟨g.nodes.length⟩ ∧
      ∃ n : Node, (g.add_node).1.node_as_ref (g.add_node).2 = some n ∧
        n.id = (g.add_node).2) ∧
    (∀ (g : Graph) (edges : List NodeRef) (p : Graph × NodeRef),
      g.add_node_linked edges = some p →
      p.2 = ⟨g.nodes.length⟩ ∧
      ∃ n : Node, p.1.node_as_ref p.2 = some n ∧ n.id = p.2) ∧
    Graph.new.Wf ∧
    (∀ g : Graph, g.Wf → (g.add_node).1.Wf) ∧
    (∀ (g : Graph) (edges : List NodeRef) (p : Graph × NodeRef),
      g.Wf → g.add_node_linked edges = some p → p.1.Wf) ∧
    (∀ (g g2 : Graph) (from_ to_ : NodeRef),
      g.Wf → g.link from_ to_ = some g2 → g2.Wf) := by
  refine ⟨fun g => ⟨rfl, ?_⟩, fun g edges p hp => ?_, Graph.Wf_new,
    fun g hg => ?_, fun g edges p hg hp => ?_, fun g g2 from_ to_ hg hl => ?_⟩
  · exact ⟨_, Graph.node_as_ref_last g.nodes _, rfl⟩
  · rw [g.add_node_linked_eq edges] at hp
    cases hp
    exact ⟨rfl, _, Graph.node_as_ref_last g.nodes _, rfl⟩
  · exact g.Wf_append _ hg rfl
  · rw [g.add_node_linked_eq edges] at hp
    cases hp
    exact g.Wf_append _ hg rfl
  · rcases Nat.lt_or_ge from_.val g.nodes.length with hi | hi
    · rw [g.link_ok from_ to_ hi] at hl
      cases hl
      exact g.Wf_set from_.val _ hg hi rfl
    · rw [g.link_oob from_ to_ hi] at hl
      cases hl

theorem add_node_sequential_identity_witness :
    ((Graph.new.add_node).2 = ⟨0⟩ ∧
      ∃ n : Node, (Graph.new.add_node).1.node_as_ref (Graph.new.add_node).2 = some n ∧
        n.id = (Graph.new.add_node).2) ∧
    demoGraph.Wf ∧
    (demoGraph.add_node).1.Wf :=
  ⟨add_node_sequential_identity.1 Graph.new,
   by decide,
   add_node_sequential_identity.2.2.2.1 demoGraph (by decide)⟩

/-! ### Fuel accounting: the walk loop cannot run out of fuel -/

/-- Setting a `false` entry to `true` lowers the `false` count by one. -/
theorem count_false_set_true : ∀ (l : List Bool) (i : Nat) (h : i < l.length),
    l.get ⟨i, h⟩ = false → (l.set i true).count false + 1 = l.count false := by
  intro l
  induction l with
  | nil => intro i h; cases h
  | cons b t ih =>
    intro i h hget
    cases i with
    | zero =>
      simp only [List.get] at hget
      subst hget
      simp [List.count_cons]
    | succ j =>
      have hj : j < t.length := by simpa using h
      have := ih j hj hget
      simp only [List.set]
      simp [List.count_cons]
      omega

/-- Every node's edge count is at most the total edge count. -/
theorem edges_le_totalEdges (g : Graph) (n : Node) (hn : n ∈ g.nodes) :
    n.edges.length ≤ g.totalEdges :=
  List.le_sum_of_mem (List.mem_map_of_mem (fun m => m.edges.length) hn)

/-- A node resolved through `node_as_ref` is stored in the graph. -/
theorem node_as_ref_mem (g : Graph) (r : NodeRef) (n : Node)
    (h : g.node_as_ref r = some n) : n ∈ g.nodes := by
  unfold Graph.node_as_ref at h
  obtain ⟨hlt, heq⟩ := List.getElem?_eq_some_iff.mp h
  exact heq ▸ List.getElem_mem hlt

/-- With fuel at least `|queue| + #unvisited * (totalEdges + 1)` the loop
never runs out: each iteration either shortens the queue or consumes one
unvisited slot while enqueueing at most `totalEdges` references. -/
theorem walkAux_no_fuel_exhaustion (g : Graph) : ∀ (fuel : Nat)
    (visited : List Bool) (queue : List NodeRef) (acc : List VisitEvent),
    queue.length + (visited.count false) * (g.totalEdges + 1) ≤ fuel →
    (g.walkAux fuel visited queue acc).isOut = false := by
  intro fuel
  induction fuel with
  | zero =>
    intro visited queue acc hb
    cases queue with
    | nil => rw [g.walkAux_nil]; rfl
    | cons node rest => simp at hb
  | succ fuel ih =>
    intro visited queue acc hb
    cases queue with
    | nil => rw [g.walkAux_nil]; rfl
    | cons node rest =>
      rw [Graph.walkAux_succ]
      by_cases hlt : node.val < visited.length
      · rw [dif_pos hlt]
        by_cases hv : visited.get ⟨node.val, hlt⟩ = true
        · rw [if_pos hv]
          apply ih
          simp only [List.length_cons] at hb
          omega
        · rw [if_neg hv]
          have hfalse : visited.get ⟨node.val, hlt⟩ = false := by
            cases hgv : visited.get ⟨node.val, hlt⟩
            · rfl
            · exact absurd hgv hv
          have hcount := count_false_set_true visited node.val hlt hfalse
          rcases hr : g.node_as_ref node with _ | n
          · rfl
          · have hle : n.edges.length ≤ g.totalEdges :=
              edges_le_totalEdges g n (node_as_ref_mem g node n hr)
            have hmul : (visited.count false) * (g.totalEdges + 1)
                = ((visited.set node.val true).count false) * (g.totalEdges + 1)
                  + (g.totalEdges + 1) := by
              rw [← hcount]
              ring
            show (if n.edges.length > 0 then
                g.walkAux fuel (visited.set node.val true) (rest ++ n.edges)
                  (acc ++ n.edges.map (fun e => (n, g.node_as_ref e)))
              else
                g.walkAux fuel (visited.set node.val true) rest
                  (acc ++ [(n, none)])).isOut = false
            by_cases he : n.edges.length > 0
            · rw [if_pos he]
              apply ih
              simp only [List.length_append, List.length_cons] at hb ⊢
              omega
            · rw [if_neg he]
              apply ih
              simp only [List.length_cons] at hb ⊢
              omega
      · rw [dif_neg hlt]
        rfl

/-! ### Monotonicity in fuel -/

theorem walkAux_mono (g : Graph) : ∀ (fuel : Nat) (visited : List Bool)
    (queue : List NodeRef) (acc : List VisitEvent),
    (g.walkAux fuel visited queue acc).isOut = false →
    g.walkAux (fuel + 1) visited queue acc = g.walkAux fuel visited queue acc := by
  intro fuel
  induction fuel with
  | zero =>
    intro visited queue acc h
    cases queue with
    | nil => rw [g.walkAux_nil, g.walkAux_nil]
    | cons node rest =>
      rw [g.walkAux_zero] at h
      simp [WalkOutcome.isOut] at h
  | succ fuel ih =>
    intro visited queue acc h
    cases queue with
    | nil => rw [g.walkAux_nil, g.walkAux_nil]
    | cons node rest =>
      by_cases hlt : node.val < visited.length
      · by_cases hv : visited.get ⟨node.val, hlt⟩ = true
        · simp only [Graph.walkAux_succ, dif_pos hlt, if_pos hv] at h ⊢
          exact ih visited rest acc h
        · rcases hr : g.node_as_ref node with _ | n
          · simp only [Graph.walkAux_succ, dif_pos hlt, if_neg hv, hr]
          · by_cases he : n.edges.length > 0
            · simp only [Graph.walkAux_succ, dif_pos hlt, if_neg hv, hr,
                if_pos he] at h ⊢
              exact ih _ _ _ h
            · simp only [Graph.walkAux_succ, dif_pos hlt, if_neg hv, hr,
                if_neg he] at h ⊢
              exact ih _ _ _ h
      · simp only [Graph.walkAux_succ, dif_neg hlt]

theorem walkAux_mono_add (g : Graph) (fuel k : Nat) (visited : List Bool)
    (queue : List NodeRef) (acc : List VisitEvent)
    (h : (g.walkAux fuel visited queue acc).isOut = false) :
    g.walkAux (fuel + k) visited queue acc = g.walkAux fuel visited queue acc := by
  induction k with
  | zero => rfl
  | succ k ih =>
    have h3 : (g.walkAux (fuel + k) visited queue acc).isOut = false := by
      rw [ih]; exact h
    calc g.walkAux (fuel + (k + 1)) visited queue acc
        = g.walkAux (fuel + k) visited queue acc :=
          walkAux_mono g (fuel + k) visited queue acc h3
      _ = g.walkAux fuel visited queue acc := ih

theorem walk_mono_add (g : Graph) (fuel k : Nat)
    (h : (g.walk fuel).isOut = false) : g.walk (fuel + k) = g.walk fuel := by
  unfold Graph.walk at h ⊢
  exact walkAux_mono_add g fuel k _ _ _ h

/-! ### Claim C6: `walk` terminates on every finite graph -/

/-- C6: for every graph there is a fuel value past which the walk loop has
already drained its queue: the result is not the fuel-exhaustion artifact
and is stable under any additional fuel. Each index flips from unvisited
to visited at most once and each flip enqueues at most `totalEdges`
references, so `enoughFuel` iterations always suffice. -/
theorem walk_terminates (g : Graph) :
    ∃ fuel : Nat, (g.walk fuel).isOut = false ∧
      ∀ k : Nat, g.walk (fuel + k) = g.walk fuel := by
  have hcount : (List.replicate g.nodes.length false).count false = g.nodes.length :=
    List.count_replicate_self false g.nodes.length
  have hfits : ([ROOT] : List NodeRef).length
      + ((List.replicate g.nodes.length false).count false) * (g.totalEdges + 1)
      ≤ g.enoughFuel := by
    simp only [List.length_cons, List.length_nil, hcount, Graph.enoughFuel]
    omega
  refine ⟨g.enoughFuel, ?_, fun k => ?_⟩
  · exact walkAux_no_fuel_exhaustion g _ _ _ _ hfits
  · exact walk_mono_add g _ k (walkAux_no_fuel_exhaustion g _ _ _ _ hfits)

/-! ### Claim C1: the demo walk trace -/

/-- C1 counterexample: building root, A, B, C, D (indices 0–4) and linking
root→A, A→B, B→C, B→D, D→A, the walk produces six visitor calls — it also
reports (C, absent) because C has no out-edges — so the claimed five-call
trace (root,A), (A,B), (B,C), (B,D), (D,A) is not the produced trace. -/
theorem walk_demo_five_calls_counterexample :
    demoBuild = some demoGraph ∧
    demoGraph.walk 100 = .ok demoTrace ∧
    demoTrace ≠ claimedDemoTrace := by
  exact ⟨by decide, by decide, by decide⟩

/-- C1 amended: the walk over the demo graph produces exactly the calls
(root,A), (A,B), (B,C), (B,D), (C,absent), (D,A), in this order, for every
sufficient fuel value. -/
theorem walk_demo_trace :
    demoBuild = some demoGraph ∧
    ∀ k : Nat, demoGraph.walk (12 + k) = .ok demoTrace := by
  refine ⟨by decide, fun k => ?_⟩
  have hbase : demoGraph.walk 12 = .ok demoTrace := by decide
  have hout : (demoGraph.walk 12).isOut = false := by rw [hbase]; rfl
  rw [walk_mono_add demoGraph 12 k hout, hbase]

/-! ### Claim C10: only reachable nodes are reported -/

theorem ReachableFrom.mono (g : Graph) (S T : NodeRef → Prop)
    (hst : ∀ r, S r → T r) :
    ∀ r, ReachableFrom g S r → ReachableFrom g T r := by
  intro r h
  induction h with
  | base r hr => exact .base r (hst r hr)
  | step u e n hu hn he ih => exact .step u e n ih hn he

/-- Trace invariant: if every queued reference is reachable and every
event recorded so far has a reachable source, this stays true of the final
trace, whatever the outcome. -/
theorem walkAux_trace_reachable (g : Graph) : ∀ (fuel : Nat) (visited : List Bool)
    (queue : List NodeRef) (acc : List VisitEvent),
    (∀ r ∈ queue, g.Reachable r) →
    (∀ ev ∈ acc, ∃ r, g.Reachable r ∧ g.node_as_ref r = some ev.1) →
    ∀ ev ∈ (g.walkAux fuel visited queue acc).trace,
      ∃ r, g.Reachable r ∧ g.node_as_ref r = some ev.1 := by
  intro fuel
  induction fuel with
  | zero =>
    intro visited queue acc hq hacc ev hev
    cases queue with
    | nil => rw [g.walkAux_nil] at hev; exact hacc ev hev
    | cons node rest => rw [g.walkAux_zero] at hev; exact hacc ev hev
  | succ fuel ih =>
    intro visited queue acc hq hacc ev hev
    cases queue with
    | nil => rw [g.walkAux_nil] at hev; exact hacc ev hev
    | cons node rest =>
      by_cases hlt : node.val < visited.length
      · by_cases hv : visited.get ⟨node.val, hlt⟩ = true
        · simp only [Graph.walkAux_succ, dif_pos hlt, if_pos hv] at hev
          exact ih visited rest acc (fun r hr => hq r (List.mem_cons_of_mem _ hr)) hacc ev hev
        · rcases hr : g.node_as_ref node with _ | n
          · simp only [Graph.walkAux_succ, dif_pos hlt, if_neg hv, hr] at hev
            exact hacc ev hev
          · have hreach_node : g.Reachable node := hq node (List.mem_cons_self _ _)
            by_cases he : n.edges.length > 0
            · simp only [Graph.walkAux_succ, dif_pos hlt, if_neg hv, hr, if_pos he] at hev
              refine ih _ _ _ ?_ ?_ ev hev
              · intro r hrq
                rcases List.mem_append.mp hrq with h1 | h2
                · exact hq r (List.mem_cons_of_mem _ h1)
                · exact ReachableFrom.step node r n hreach_node hr h2
              · intro ev2 hev2
                rcases List.mem_append.mp hev2 with h1 | h2
                · exact hacc ev2 h1
                · obtain ⟨e, he2, heq⟩ := List.mem_map.mp h2
                  subst heq
                  exact ⟨node, hreach_node, by rw [hr]⟩
            · simp only [Graph.walkAux_succ, dif_pos hlt, if_neg hv, hr, if_neg he] at hev
              refine ih _ _ _ (fun r hrq => hq r (List.mem_cons_of_mem _ hrq)) ?_ ev hev
              intro ev2 hev2
              rcases List.mem_append.mp hev2 with h1 | h2
              · exact hacc ev2 h1
              · rw [List.mem_singleton.mp h2]
                exact ⟨node, hreach_node, hr⟩
      · simp only [Graph.walkAux_succ, dif_neg hlt] at hev
        exact hacc ev hev

/-- C10: during `walk`, the first argument of every visitor invocation —
under any outcome, for any graph — is a node resolved from a reference
reachable from index 0 along stored edges; unreachable nodes are never
reported. -/
theorem walk_visits_only_reachable (g : Graph) (fuel : Nat) (ev : VisitEvent)
    (hev : ev ∈ (g.walk fuel).trace) :
    ∃ r, g.Reachable r ∧ g.node_as_ref r = some ev.1 := by
  refine walkAux_trace_reachable g fuel _ _ _ ?_ ?_ ev hev
  · intro r hr
    rw [List.mem_singleton] at hr
    subst hr
    exact .base ROOT rfl
  · intro ev2 h2
    exact absurd h2 (List.not_mem_nil _)

theorem walk_visits_only_reachable_witness :
    (({ id := ⟨0⟩, label := ".L0", edges := [⟨1⟩] },
        some { id := ⟨1⟩, label := ".L1", edges := [⟨2⟩] }) : VisitEvent)
      ∈ (demoGraph.walk 100).trace ∧
    ∃ r, demoGraph.Reachable r ∧
      demoGraph.node_as_ref r = some { id := ⟨0⟩, label := ".L0", edges := [⟨1⟩] } :=
  have hmem : (({ id := ⟨0⟩, label := ".L0", edges := [⟨1⟩] },
      some { id := ⟨1⟩, label := ".L1", edges := [⟨2⟩] }) : VisitEvent)
      ∈ (demoGraph.walk 100).trace := by decide
  ⟨hmem, walk_visits_only_reachable demoGraph 100 _ hmem⟩

/-! ### Claim C2: dangling edges abort the walk -/

/-- With an empty queue, the seen set is closed under stored edges, so
everything reachable from it is seen and in bounds. -/
theorem seen_closed_of_empty_queue (g : Graph) (visited : List Bool)
    (hlen : visited.length = g.nodes.length)
    (hinv : edgesSeen g visited []) :
    ∀ r, ReachableFrom g (seenIn visited []) r →
      seenIn visited [] r ∧ r.val < g.nodes.length := by
  intro r h
  induction h with
  | base r hr =>
    refine ⟨hr, ?_⟩
    rcases hr with hq | ⟨hb, _⟩
    · exact absurd hq (List.not_mem_nil _)
    · omega
  | step u e n hu hn he ih =>
    obtain ⟨hseen, hub⟩ := ih
    rcases hseen with hq | ⟨hb, htrue⟩
    · exact absurd hq (List.not_mem_nil _)
    · have hn2 : u.val < g.nodes.length := by omega
      have hget : g.nodes.get ⟨u.val, hn2⟩ = n := by
        unfold Graph.node_as_ref at hn
        obtain ⟨h1, h2⟩ := List.getElem?_eq_some_iff.mp hn
        exact h2
      have hseen2 := hinv u.val hb hn2 htrue e (by rw [hget]; exact he)
      refine ⟨hseen2, ?_⟩
      rcases hseen2 with hq | ⟨hb2, _⟩
      · exact absurd hq (List.not_mem_nil _)
      · omega

/-- One dequeue step can only grow the seen set. -/
theorem seen_step (visited : List Bool) (node : NodeRef)
    (rest pushed : List NodeRef) (hlt : node.val < visited.length) :
    ∀ x, seenIn visited (node :: rest) x →
      seenIn (visited.set node.val true) (rest ++ pushed) x := by
  intro x hx
  rcases hx with hxq | ⟨hb, htrue⟩
  · rcases List.mem_cons.mp hxq with hxn | hxr
    · subst hxn
      refine Or.inr ⟨by simpa using hlt, ?_⟩
      simp [List.get_eq_getElem]
    · exact Or.inl (List.mem_append_left _ hxr)
  · refine Or.inr ⟨by simpa using hb, ?_⟩
    by_cases hxe : x.val = node.val
    · simp [List.get_eq_getElem, hxe]
    · simp only [List.get_eq_getElem]
      rw [List.getElem_set_ne (fun hc => hxe hc.symm)]
      exact htrue

/-- If the walk loop completes normally, every reference reachable from
the current seen set is in bounds: an out-of-bounds reference would be
dequeued eventually and panic the `visited` check. -/
theorem walkAux_ok_reachable_in_bounds (g : Graph) : ∀ (fuel : Nat)
    (visited : List Bool) (queue : List NodeRef) (acc tr : List VisitEvent),
    visited.length = g.nodes.length →
    edgesSeen g visited queue →
    g.walkAux fuel visited queue acc = .ok tr →
    ∀ r, ReachableFrom g (seenIn visited queue) r → r.val < g.nodes.length := by
  intro fuel
  induction fuel with
  | zero =>
    intro visited queue acc tr hlen hinv hok r hr
    cases queue with
    | nil => exact (seen_closed_of_empty_queue g visited hlen hinv r hr).2
    | cons node rest => rw [g.walkAux_zero] at hok; cases hok
  | succ fuel ih =>
    intro visited queue acc tr hlen hinv hok r hr
    cases queue with
    | nil => exact (seen_closed_of_empty_queue g visited hlen hinv r hr).2
    | cons node rest =>
      by_cases hlt : node.val < visited.length
      · by_cases hv : visited.get ⟨node.val, hlt⟩ = true
        · simp only [Graph.walkAux_succ, dif_pos hlt, if_pos hv] at hok
          have hsub : ∀ x, seenIn visited (node :: rest) x → seenIn visited rest x := by
            intro x hx
            rcases hx with hxq | hxv
            · rcases List.mem_cons.mp hxq with hxn | hxr
              · subst hxn; exact Or.inr ⟨hlt, hv⟩
              · exact Or.inl hxr
            · exact Or.inr hxv
          have hinv2 : edgesSeen g visited rest := by
            intro i hvv hni htrue e hee
            exact hsub e (hinv i hvv hni htrue e hee)
          exact ih visited rest acc tr hlen hinv2 hok r
            (ReachableFrom.mono g _ _ hsub r hr)
        · rcases hrn : g.node_as_ref node with _ | n
          · simp only [Graph.walkAux_succ, dif_pos hlt, if_neg hv, hrn] at hok
            cases hok
          · have hnode_lt : node.val < g.nodes.length := by omega
            have hget : g.nodes.get ⟨node.val, hnode_lt⟩ = n := by
              unfold Graph.node_as_ref at hrn
              obtain ⟨h1, h2⟩ := List.getElem?_eq_some_iff.mp hrn
              exact h2
            have hinv2 : ∀ pushed : List NodeRef,
                (∀ e ∈ n.edges, e ∈ pushed) →
                edgesSeen g (visited.set node.val true) (rest ++ pushed) := by
              intro pushed hpush i hvv hni htrue e hee
              by_cases hie : i = node.val
              · subst hie
                have hg2 : g.nodes.get ⟨node.val, hni⟩ = n := hget
                rw [hg2] at hee
                exact Or.inl (List.mem_append_right _ (hpush e hee))
              · have hvv' : i < visited.length := by simpa using hvv
                have htrue' : visited.get ⟨i, hvv'⟩ = true := by
                  simp only [List.get_eq_getElem] at htrue ⊢
                  rw [List.getElem_set_ne (fun hc => hie hc.symm)] at htrue
                  exact htrue
                exact seen_step visited node rest pushed hlt e
                  (hinv i hvv' hni htrue' e hee)
            by_cases he : n.edges.length > 0
            · simp only [Graph.walkAux_succ, dif_pos hlt, if_neg hv, hrn,
                if_pos he] at hok
              refine ih _ _ _ tr (by simpa using hlen)
                (hinv2 n.edges (fun e hee => hee)) hok r
                (ReachableFrom.mono g _ _ (seen_step visited node rest n.edges hlt) r hr)
            · simp only [Graph.walkAux_succ, dif_pos hlt, if_neg hv, hrn,
                if_neg he] at hok
              have hempty : n.edges = [] := List.length_eq_zero.mp (by omega)
              have hinv3 := hinv2 [] (by rw [hempty]; intro e hee; cases hee)
              rw [List.append_nil] at hinv3
              refine ih _ _ _ tr (by simpa using hlen) hinv3 hok r ?_
              have hsub := seen_step visited node rest [] hlt
              rw [List.append_nil] at hsub
              exact ReachableFrom.mono g _ _ hsub r hr
      · simp only [Graph.walkAux_succ, dif_neg hlt] at hok
        cases hok

/-- C2 amended: when some node reachable from the root has a stored
out-edge whose index is at or beyond the node count, the walk never runs
to normal completion: the dangling reference is surfaced to the visitor as
an absent target when its owner is expanded, but it is also enqueued, and
dequeueing it indexes the visited vector out of bounds, aborting the
traversal. -/
theorem walk_dangling_edge_aborts (g : Graph) (u e : NodeRef) (n : Node)
    (hu : g.Reachable u) (hn : g.node_as_ref u = some n) (he : e ∈ n.edges)
    (hoob : g.nodes.length ≤ e.val) :
    ∀ (fuel : Nat) (tr : List VisitEvent), g.walk fuel ≠ .ok tr := by
  intro fuel tr hok
  unfold Graph.walk at hok
  have hre : g.Reachable e := ReachableFrom.step u e n hu hn he
  have hinv : edgesSeen g (List.replicate g.nodes.length false) [ROOT] := by
    intro i hvv hni htrue e2 hee
    simp only [List.get_eq_getElem, List.getElem_replicate] at htrue
    cases htrue
  have hmono : ∀ x, x = ROOT →
      seenIn (List.replicate g.nodes.length false) [ROOT] x :=
    fun x hx => Or.inl (by rw [hx]; exact List.mem_singleton.mpr rfl)
  have hre2 := ReachableFrom.mono g _ _ hmono e hre
  have := walkAux_ok_reachable_in_bounds g fuel _ [ROOT] [] tr
    (by simp) hinv hok e hre2
  omega

theorem walk_dangling_edge_aborts_witness :
    danglingGraph.walk 10 ≠ WalkOutcome.ok [] :=
  walk_dangling_edge_aborts danglingGraph ROOT ⟨1⟩
    { id := ⟨0⟩, label := ".L0", edges := [⟨1⟩] }
    (ReachableFrom.base ROOT rfl) (by decide) (by decide) (by decide) 10 []

/-- C2 counterexample: on a one-node graph whose only edge points out of
bounds, the walk does surface the edge to the visitor as an absent target,
but then aborts fatally when the dangling reference is dequeued — it does
not run to normal completion. -/
theorem walk_dangling_counterexample :
    danglingGraph.walk 10 =
      .panic [({ id := ⟨0⟩, label := ".L0", edges := [⟨1⟩] }, none)] := by
  decide

/-! ### Claim C5: each reachable node is expanded exactly once -/

/-- Master run lemma: on a graph whose stored edges are in bounds, given
in-bounds queued references and sufficient fuel, the walk loop completes
normally and its trace is the concatenation of one visit block per
expanded index; the expansion order `L` has no duplicates, contains only
previously unvisited indices, accounts for every queued reference, and is
closed under the edges of expanded nodes. -/
theorem walkAux_ok_struct (g : Graph) : ∀ (fuel : Nat) (visited : List Bool)
    (queue : List NodeRef) (acc : List VisitEvent),
    visited.length = g.nodes.length →
    g.EdgesOk →
    (∀ r ∈ queue, r.val < g.nodes.length) →
    queue.length + (visited.count false) * (g.totalEdges + 1) ≤ fuel →
    ∃ L : List Nat,
      g.walkAux fuel visited queue acc = .ok (acc ++ (L.map g.blockAt).flatten) ∧
      L.Nodup ∧
      (∀ i ∈ L, ∃ h : i < visited.length, visited.get ⟨i, h⟩ = false) ∧
      (∀ r ∈ queue, r.val ∈ L ∨
        ∃ h : r.val < visited.length, visited.get ⟨r.val, h⟩ = true) ∧
      (∀ i ∈ L, ∀ hn : i < g.nodes.length, ∀ e ∈ (g.nodes.get ⟨i, hn⟩).edges,
        e.val ∈ L ∨ ∃ h : e.val < visited.length, visited.get ⟨e.val, h⟩ = true) := by
  intro fuel
  induction fuel with
  | zero =>
    intro visited queue acc hlen hEok hq hb
    cases queue with
    | nil =>
      refine ⟨[], ?_, List.nodup_nil, fun i hi => absurd hi (List.not_mem_nil _),
        fun r hr => absurd hr (List.not_mem_nil _),
        fun i hi => absurd hi (List.not_mem_nil _)⟩
      rw [g.walkAux_nil]
      simp
    | cons node rest =>
      simp only [List.length_cons] at hb
      omega
  | succ fuel ih =>
    intro visited queue acc hlen hEok hq hb
    cases queue with
    | nil =>
      refine ⟨[], ?_, List.nodup_nil, fun i hi => absurd hi (List.not_mem_nil _),
        fun r hr => absurd hr (List.not_mem_nil _),
        fun i hi => absurd hi (List.not_mem_nil _)⟩
      rw [g.walkAux_nil]
      simp
    | cons node rest =>
      have hnode : node.val < g.nodes.length := hq node (List.mem_cons_self _ _)
      have hlt : node.val < visited.length := by omega
      by_cases hv : visited.get ⟨node.val, hlt⟩ = true
      · obtain ⟨L, hok, hnd, hLun, hqc, hcl⟩ := ih visited rest acc hlen hEok
          (fun r hr => hq r (List.mem_cons_of_mem _ hr))
          (by simp only [List.length_cons] at hb; omega)
        refine ⟨L, ?_, hnd, hLun, ?_, hcl⟩
        · simp only [Graph.walkAux_succ, dif_pos hlt, if_pos hv]
          exact hok
        · intro r hr
          rcases List.mem_cons.mp hr with h1 | h2
          · subst h1
            exact Or.inr ⟨hlt, hv⟩
          · exact hqc r h2
      · have hfalse : visited.get ⟨node.val, hlt⟩ = false := by
          cases hgv : visited.get ⟨node.val, hlt⟩
          · rfl
          · exact absurd hgv hv
        have hrn : g.node_as_ref node = some (g.nodes.get ⟨node.val, hnode⟩) := by
          unfold Graph.node_as_ref
          exact List.getElem?_eq_getElem hnode
        have hmem : g.nodes.get ⟨node.val, hnode⟩ ∈ g.nodes :=
          List.get_mem _ _ _
        have hcount := count_false_set_true visited node.val hlt hfalse
        have hmul : (visited.count false) * (g.totalEdges + 1)
            = ((visited.set node.val true).count false) * (g.totalEdges + 1)
              + (g.totalEdges + 1) := by
          rw [← hcount]
          ring
        by_cases he : (g.nodes.get ⟨node.val, hnode⟩).edges.length > 0
        · have hq2 : ∀ r ∈ rest ++ (g.nodes.get ⟨node.val, hnode⟩).edges,
              r.val < g.nodes.length := by
            intro r hr
            rcases List.mem_append.mp hr with h1 | h2
            · exact hq r (List.mem_cons_of_mem _ h1)
            · exact hEok _ hmem r h2
          have hb2 : (rest ++ (g.nodes.get ⟨node.val, hnode⟩).edges).length
              + ((visited.set node.val true).count false) * (g.totalEdges + 1)
              ≤ fuel := by
            have hle := edges_le_totalEdges g _ hmem
            simp only [List.length_append, List.length_cons] at hb ⊢
            omega
          obtain ⟨L, hok, hnd, hLun, hqc, hcl⟩ := ih (visited.set node.val true)
            (rest ++ (g.nodes.get ⟨node.val, hnode⟩).edges)
            (acc ++ (g.nodes.get ⟨node.val, hnode⟩).edges.map
              (fun e => (g.nodes.get ⟨node.val, hnode⟩, g.node_as_ref e)))
            (by simpa using hlen) hEok hq2 hb2
          have hlift2 : ∀ x : Nat,
              (x ∈ L ∨ ∃ h : x < (visited.set node.val true).length,
                (visited.set node.val true).get ⟨x, h⟩ = true) →
              (x ∈ node.val :: L ∨
                ∃ h : x < visited.length, visited.get ⟨x, h⟩ = true) := by
            intro x hx
            rcases hx with h1 | ⟨h2, h3⟩
            · exact Or.inl (List.mem_cons_of_mem _ h1)
            · by_cases hxe : x = node.val
              · exact Or.inl (by rw [hxe]; exact List.mem_cons_self _ _)
              · refine Or.inr ⟨by simpa using h2, ?_⟩
                simp only [List.get_eq_getElem] at h3 ⊢
                rw [List.getElem_set_ne (fun hc => hxe hc.symm)] at h3
                exact h3
          have hblock : g.blockAt node.val
              = (g.nodes.get ⟨node.val, hnode⟩).edges.map
                  (fun e => (g.nodes.get ⟨node.val, hnode⟩, g.node_as_ref e)) := by
            unfold Graph.blockAt
            rw [show g.node_as_ref ⟨node.val⟩
                = some (g.nodes.get ⟨node.val, hnode⟩) from hrn]
            show g.visitBlock (g.nodes.get ⟨node.val, hnode⟩) = _
            unfold Graph.visitBlock
            rw [if_pos he]
          have hnotmem : node.val ∉ L := by
            intro hmem2
            obtain ⟨hL1, hL2⟩ := hLun node.val hmem2
            simp only [List.get_eq_getElem, List.getElem_set_self] at hL2
            cases hL2
          refine ⟨node.val :: L, ?_, List.nodup_cons.mpr ⟨hnotmem, hnd⟩, ?_, ?_, ?_⟩
          · simp only [Graph.walkAux_succ, dif_pos hlt, if_neg hv, hrn, if_pos he]
            rw [hok]
            rw [List.map_cons, List.flatten_cons, hblock]
            rw [List.append_assoc]
          · intro i hi
            rcases List.mem_cons.mp hi with h1 | h2
            · subst h1
              exact ⟨hlt, hfalse⟩
            · obtain ⟨hL1, hL2⟩ := hLun i h2
              have hine : i ≠ node.val := by
                intro hcontra
                subst hcontra
                simp only [List.get_eq_getElem, List.getElem_set_self] at hL2
                cases hL2
              refine ⟨by simpa using hL1, ?_⟩
              simp only [List.get_eq_getElem] at hL2 ⊢
              rw [List.getElem_set_ne (fun hc => hine hc.symm)] at hL2
              exact hL2
          · intro r hr
            rcases List.mem_cons.mp hr with h1 | h2
            · subst h1
              exact Or.inl (List.mem_cons_self _ _)
            · exact hlift2 r.val (hqc r (List.mem_append_left _ h2))
          · intro i hi hn e hee
            rcases List.mem_cons.mp hi with h1 | h2
            · subst h1
              have hg2 : g.nodes.get ⟨node.val, hn⟩ = g.nodes.get ⟨node.val, hnode⟩ := rfl
              rw [hg2] at hee
              exact hlift2 e.val (hqc e (List.mem_append_right _ hee))
            · exact hlift2 e.val (hcl i h2 hn e hee)
        · have hempty : (g.nodes.get ⟨node.val, hnode⟩).edges = [] :=
            List.length_eq_zero.mp (by omega)
          have hb2 : rest.length
              + ((visited.set node.val true).count false) * (g.totalEdges + 1)
              ≤ fuel := by
            simp only [List.length_cons] at hb
            omega
          obtain ⟨L, hok, hnd, hLun, hqc, hcl⟩ := ih (visited.set node.val true)
            rest (acc ++ [(g.nodes.get ⟨node.val, hnode⟩, none)])
            (by simpa using hlen) hEok
            (fun r hr => hq r (List.mem_cons_of_mem _ hr)) hb2
          have hlift2 : ∀ x : Nat,
              (x ∈ L ∨ ∃ h : x < (visited.set node.val true).length,
                (visited.set node.val true).get ⟨x, h⟩ = true) →
              (x ∈ node.val :: L ∨
                ∃ h : x < visited.length, visited.get ⟨x, h⟩ = true) := by
            intro x hx
            rcases hx with h1 | ⟨h2, h3⟩
            · exact Or.inl (List.mem_cons_of_mem _ h1)
            · by_cases hxe : x = node.val
              · exact Or.inl (by rw [hxe]; exact List.mem_cons_self _ _)
              · refine Or.inr ⟨by simpa using h2, ?_⟩
                simp only [List.get_eq_getElem] at h3 ⊢
                rw [List.getElem_set_ne (fun hc => hxe hc.symm)] at h3
                exact h3
          have hblock : g.blockAt node.val = [(g.nodes.get ⟨node.val, hnode⟩, none)] := by
            unfold Graph.blockAt
            rw [show g.node_as_ref ⟨node.val⟩
                = some (g.nodes.get ⟨node.val, hnode⟩) from hrn]
            show g.visitBlock (g.nodes.get ⟨node.val, hnode⟩) = _
            unfold Graph.visitBlock
            rw [if_neg he]
          have hnotmem : node.val ∉ L := by
            intro hmem2
            obtain ⟨hL1, hL2⟩ := hLun node.val hmem2
            simp only [List.get_eq_getElem, List.getElem_set_self] at hL2
            cases hL2
          refine ⟨node.val :: L, ?_, List.nodup_cons.mpr ⟨hnotmem, hnd⟩, ?_, ?_, ?_⟩
          · simp only [Graph.walkAux_succ, dif_pos hlt, if_neg hv, hrn, if_neg he]
            rw [hok]
            rw [List.map_cons, List.flatten_cons, hblock]
            rw [List.append_assoc]
          · intro i hi
            rcases List.mem_cons.mp hi with h1 | h2
            · subst h1
              exact ⟨hlt, hfalse⟩
            · obtain ⟨hL1, hL2⟩ := hLun i h2
              have hine : i ≠ node.val := by
                intro hcontra
                subst hcontra
                simp only [List.get_eq_getElem, List.getElem_set_self] at hL2
                cases hL2
              refine ⟨by simpa using hL1, ?_⟩
              simp only [List.get_eq_getElem] at hL2 ⊢
              rw [List.getElem_set_ne (fun hc => hine hc.symm)] at hL2
              exact hL2
          · intro r hr
            rcases List.mem_cons.mp hr with h1 | h2
            · subst h1
              exact Or.inl (List.mem_cons_self _ _)
            · exact hlift2 r.val (hqc r h2)
          · intro i hi hn e hee
            rcases List.mem_cons.mp hi with h1 | h2
            · subst h1
              have hg2 : g.nodes.get ⟨node.val, hn⟩ = g.nodes.get ⟨node.val, hnode⟩ := rfl
              rw [hg2, hempty] at hee
              cases hee
            · exact hlift2 e.val (hcl i h2 hn e hee)

/-- C5: on every non-empty graph whose stored edges are all in bounds,
`walk` (with sufficient fuel) completes normally; the trace splits into
one visit block per expanded index, the expansion order has no duplicates
(a node enqueued many times is expanded at most once), and every node
reachable from the root is expanded — so each reachable node contributes
exactly one block: one visitor call per out-edge, or a single absent-target
call when it has none. -/
theorem walk_visits_reachable_once (g : Graph)
    (hne : 0 < g.nodes.length) (hEok : g.EdgesOk) :
    ∀ fuel : Nat, g.enoughFuel ≤ fuel →
    ∃ (trace : List VisitEvent) (L : List Nat),
      g.walk fuel = .ok trace ∧
      trace = (L.map g.blockAt).flatten ∧
      L.Nodup ∧
      (∀ i ∈ L, i < g.nodes.length) ∧
      (∀ r, g.Reachable r → r.val ∈ L) := by
  intro fuel hfuel
  have hq : ∀ r ∈ ([ROOT] : List NodeRef), r.val < g.nodes.length := by
    intro r hr
    rw [List.mem_singleton] at hr
    subst hr
    exact hne
  have hb : ([ROOT] : List NodeRef).length
      + ((List.replicate g.nodes.length false).count false) * (g.totalEdges + 1)
      ≤ fuel := by
    have hrep := List.count_replicate_self false g.nodes.length
    have hef : g.enoughFuel = 1 + g.nodes.length * (g.totalEdges + 1) := rfl
    simp only [List.length_cons, List.length_nil, hrep]
    omega
  obtain ⟨L, hok, hnd, hLun, hqc, hcl⟩ := walkAux_ok_struct g fuel
    (List.replicate g.nodes.length false) [ROOT] [] (by simp) hEok hq hb
  have hLb : ∀ i ∈ L, i < g.nodes.length := by
    intro i hi
    obtain ⟨h1, _⟩ := hLun i hi
    simpa using h1
  have hnofalse : ∀ (x : Nat) (h : x < (List.replicate g.nodes.length false).length),
      ¬ ((List.replicate g.nodes.length false).get ⟨x, h⟩ = true) := by
    intro x h hc
    simp only [List.get_eq_getElem, List.getElem_replicate] at hc
    cases hc
  refine ⟨(L.map g.blockAt).flatten, L, ?_, rfl, hnd, hLb, ?_⟩
  · unfold Graph.walk
    rw [hok]
    simp
  · intro r hr
    induction hr with
    | base x hx =>
      have hx2 : x = ROOT := hx
      subst hx2
      rcases hqc ROOT (List.mem_cons_self _ _) with h1 | ⟨h2, h3⟩
      · exact h1
      · exact absurd h3 (hnofalse ROOT.val h2)
    | step u e n hu hn he ih =>
      have hub : u.val < g.nodes.length := hLb u.val ih
      have hget : g.nodes.get ⟨u.val, hub⟩ = n := by
        unfold Graph.node_as_ref at hn
        obtain ⟨h1, h2⟩ := List.getElem?_eq_some_iff.mp hn
        exact h2
      rcases hcl u.val ih hub e (by rw [hget]; exact he) with h1 | ⟨h2, h3⟩
      · exact h1
      · exact absurd h3 (hnofalse e.val h2)

theorem walk_visits_reachable_once_witness :
    0 < demoGraph.nodes.length ∧ demoGraph.EdgesOk ∧
    (∃ (trace : List VisitEvent) (L : List Nat),
      demoGraph.walk demoGraph.enoughFuel = .ok trace ∧
      trace = (L.map demoGraph.blockAt).flatten ∧
      L.Nodup ∧
      (∀ i ∈ L, i < demoGraph.nodes.length) ∧
      (∀ r, demoGraph.Reachable r → r.val ∈ L)) :=
  ⟨by decide, by decide,
    walk_visits_reachable_once demoGraph (by decide) (by decide)
      demoGraph.enoughFuel (Nat.le_refl _)⟩
